import Mathlib

/-!
# Verification of the SuperGrobid reconciliation engine

Shallow embedding of `supergrobid/reconciliation.py` and the similarity /
bounding-box helpers of `supergrobid/utils.py`, followed by theorems that
settle the frozen claims about the reconciliation pass.

Embedding conventions:
* Python floats become `ℚ`.  The only float operation without a rational
  counterpart is `np.sqrt` in `calculate_bbox_distance`; since the distance is
  used exclusively in comparisons (`<` against the running minimum, `<=`
  against `orphan_max_distance`) and `sqrt` is monotone, we model the squared
  distance and compare it against squared bounds.
* Python dicts become structures.  A dict whose `"blocks"` key may be absent
  (the figure/table elements built by `_handle_non_text_element` have no such
  key) is modelled with an `Option` field; reading the missing key is a
  `KeyError`, modelled as `Except.error`.
* Python object identity (block dicts are aliased between `pymupdf_output`
  and the `blocks` lists of elements) is modelled by tagging each ground-truth
  fragment with its index in the input list: a matched window is a slice of
  the index-tagged input list.
* Python exceptions (the `ValueError` of `calculate_similarity`, the
  `KeyError` of orphan absorption) are modelled with `Except String`.
-/

/-- An axis-aligned bounding box `[x0, y0, x1, y1]`, as the 4-element lists
used throughout the source. -/
structure Box where
  x0 : ℚ
  y0 : ℚ
  x1 : ℚ
  y1 : ℚ
deriving DecidableEq, Repr

/-- One PyMuPDF ground-truth text block: the fields of `pymupdf_output`
entries that `reconciliation.py` reads (`text`, `page`, `bbox`). -/
structure Block where
  text : String
  page : Nat
  bbox : Box
deriving DecidableEq, Repr

/-- One Nougat structural element: the fields of `nougat_output` entries the
engine reads.  `bbox`, `page` and `confidence` are read with
`element.get(..., default)`, hence `Option`. -/
structure NElem where
  typ : String
  text : String
  bbox : Option Box
  page : Option Nat
  confidence : Option ℚ
deriving DecidableEq, Repr

/-- A LayoutParser region.  `reconcile` threads `layout_output` through to
`_handle_non_text_element`, which never reads it. -/
structure LayoutRegion where
  typ : String
  page : Nat
  bbox : Box
  confidence : ℚ
deriving DecidableEq, Repr

/-- A reconciled output element (the dicts appended to `reconciled`).
`blocks` is `none` when the dict has no `"blocks"` key (the figure/table
elements), `some bs` otherwise; each entry carries the index of the source
fragment in `pymupdf_output`, embedding Python object identity.
`hallucination_warning` is `false` when the key is absent.  `surrounding`
models the `"surrounding_blocks"` key of figure/table elements. -/
structure Elem where
  typ : String
  text : String
  blocks : Option (List (Nat × Block))
  bbox : Box
  page : Nat
  confidence : ℚ
  hallucination_warning : Bool
  surrounding : Option (List Block × List Block)
deriving DecidableEq, Repr

/-- The attributes `ReconciliationEngine.__init__` extracts from the nested
config dict (we elide the dict lookup with defaults and start from the five
extracted attributes). -/
structure Engine where
  similarity_method : String
  similarity_threshold : ℚ
  hallucination_threshold : ℚ
  discard_threshold : ℚ
  orphan_max_distance : ℚ
deriving DecidableEq, Repr

/-- The loop state of `ReconciliationEngine.reconcile`: the `reconciled`
list, the `pymupdf_index` cursor and the `used_pymupdf_blocks` set. -/
structure RState where
  out : List Elem
  cursor : Nat
  used : Finset Nat
deriving DecidableEq

/-! ## Text similarity (`utils.calculate_similarity`)

The `levenshtein` branch calls the external fuzzywuzzy `fuzz.ratio`, which
returns `int(round(100 * ratio))` where `ratio = 2*M/(len1+len2)` and `M` is
the length of a longest common subsequence (equivalently
`(lensum - d)/lensum` for the edit distance `d` with substitution cost 2).
We compute `M` by the standard row-by-row dynamic program and round half up;
Python rounds half to even, which differs only when `200*M/(len1+len2)` lands
exactly on `.5` — no input evaluated below does. -/

/-- ASCII lowercasing of the characters of a string (Python `str.lower`;
`Char.toLower` agrees with it on ASCII, which covers every evaluated input). -/
def lowerChars (s : String) : List Char := s.data.map Char.toLower

/-- One inner step of the LCS dynamic program: given the previous row's tail
`up :: ups`, the diagonal entry `diag` and the entry `left` just written,
produce the rest of the new row. -/
def lcsAux (x : Char) : List Char → List Nat → Nat → Nat → List Nat
  | [], _, _, _ => []
  | _ :: _, [], _, _ => []
  | y :: ys, up :: ups, diag, left =>
    let v := if x = y then diag + 1 else max up left
    v :: lcsAux x ys ups up v

/-- The next row of the LCS table after consuming one character of `s`. -/
def lcsRow (x : Char) (t : List Char) (row : List Nat) : List Nat :=
  0 :: lcsAux x t row.tail (row.headD 0) 0

/-- Length of a longest common subsequence of `s` and `t`. -/
def lcsLen (s t : List Char) : Nat :=
  (s.foldl (fun row x => lcsRow x t row) (List.replicate (t.length + 1) 0)).getLastD 0

/-- fuzzywuzzy `fuzz.ratio` as an integer percentage:
`round(100 * 2*M / (len s + len t))`, rounded half up (see note above). -/
def ratioPct (s t : List Char) : Nat :=
  let L := s.length + t.length
  if L = 0 then 0 else (400 * lcsLen s t + L) / (2 * L)

/-- fuzzywuzzy `fuzz.partial_ratio` as an integer percentage: the best
`ratioPct` of the shorter string against a window of the longer string of the
shorter string's length.  External-library code (not in this repository); no
claim depends on its value. -/
def partialRatioPct (s t : List Char) : Nat :=
  let short := if s.length ≤ t.length then s else t
  let lng := if s.length ≤ t.length then t else s
  ((List.range (lng.length - short.length + 1)).map
    (fun off => ratioPct short ((lng.drop off).take short.length))).foldl max 0

/-- Modelled from the spec: the `cosine` branch delegates to the external
sklearn TF-IDF vectorizer and float cosine similarity, which has no exact
rational semantics in this embedding; the source falls back to `0.0` when the
vectorizer raises.  No claim depends on this branch's value, so it is
modelled by that fallback value. -/
def cosineSimQ (_t1 _t2 : String) : ℚ := 0

/-- `utils.calculate_similarity`: empty-text guard first, then dispatch on
the method name; an unknown method raises `ValueError`. -/
def calculate_similarity (method t1 t2 : String) : Except String ℚ :=
  if t1 = "" ∨ t2 = "" then .ok 0
  else if method = "levenshtein" then
    .ok ((ratioPct (lowerChars t1) (lowerChars t2) : ℚ) / 100)
  else if method = "fuzzy" then
    .ok ((partialRatioPct (lowerChars t1) (lowerChars t2) : ℚ) / 100)
  else if method = "cosine" then .ok (cosineSimQ t1 t2)
  else .error ("Unknown similarity method: " ++ method)

/-! ## Bounding boxes (`utils.merge_bboxes`, `utils.calculate_bbox_distance`) -/

/-- Componentwise min/max of two boxes (one step of the min/max over the
list taken by `merge_bboxes`). -/
def mergeStep (a b : Box) : Box :=
  ⟨min a.x0 b.x0, min a.y0 b.y0, max a.x1 b.x1, max a.y1 b.y1⟩

/-- `utils.merge_bboxes`: all-zero box for `[]`, else componentwise min of
`x0`/`y0` and max of `x1`/`y1` over the list. -/
def merge_bboxes : List Box → Box
  | [] => ⟨0, 0, 0, 0⟩
  | b :: bs => bs.foldl mergeStep b

/-- The square of `utils.calculate_bbox_distance` (Euclidean distance of the
box centers).  The source takes `np.sqrt`; every use site compares distances,
and `sqrt` is monotone, so the squared form is compared against squared
bounds. -/
def calculate_bbox_dist_sq (b1 b2 : Box) : ℚ :=
  ((b1.x0 + b1.x1) / 2 - (b2.x0 + b2.x1) / 2) ^ 2
    + ((b1.y0 + b1.y1) / 2 - (b2.y0 + b2.y1) / 2) ^ 2

/-! ## Block matching (`ReconciliationEngine._find_matching_blocks`) -/

/-- The window sizes iterated by `_find_matching_blocks`:
Python `range(1, min(10, len(pymupdf_output) - start_index + 1))`. -/
def windowSizes (n start : Nat) : List Nat :=
  List.range' 1 (min 10 (n - start + 1) - 1)

/-- The start offsets iterated for window size `w`:
Python `range(start_index, len(pymupdf_output) - window_size + 1)`. -/
def windowOffsets (n start w : Nat) : List Nat :=
  List.range' start (n + 1 - w - start)

/-- The `(window_size, start_offset)` pairs of the double loop, in iteration
order: outer loop over sizes, inner loop over offsets. -/
def windowPairs (n start : Nat) : List (Nat × Nat) :=
  (windowSizes n start).flatMap (fun w => (windowOffsets n start w).map (fun i => (w, i)))

/-- The space-joined text of the window `pymupdf_output[i : i + w]`. -/
def windowText (fs : List Block) (i w : Nat) : String :=
  String.intercalate (" ") (((fs.drop i).take w).map Block.text)

/-- The window `pymupdf_output[i : i + w]` with each block tagged by its
index in the input list (the embedding of Python object identity). -/
def enumWindow (fs : List Block) (i w : Nat) : List (Nat × Block) :=
  (fs.enum.drop i).take w

/-- The double loop of `_find_matching_blocks` over the remaining `(w, i)`
pairs, carrying `(matched_blocks, best_end_index, best_similarity)`; the best
is replaced only on a strictly greater score. -/
def fmbLoop (method target : String) (fs : List Block) :
    List (Nat × Nat) → List (Nat × Block) × Nat × ℚ →
    Except String (List (Nat × Block) × Nat × ℚ)
  | [], st => .ok st
  | (w, i) :: rest, st => do
    let sim ← calculate_similarity method target (windowText fs i w)
    fmbLoop method target fs rest
      (if st.2.2 < sim then (enumWindow fs i w, i + w, sim) else st)

/-- `_find_matching_blocks`: sliding-window search from `start`, returning
`(matched_blocks, new_index, best_similarity)` with initial state
`([], start, 0.0)`. -/
def find_matching_blocks (method target : String) (fs : List Block) (start : Nat) :
    Except String (List (Nat × Block) × Nat × ℚ) :=
  fmbLoop method target fs (windowPairs fs.length start) ([], start, 0)

/-! ## Non-text elements (`_handle_non_text_element` and helpers) -/

/-- `_find_previous_text_blocks`: `pymupdf_output[max(0, c-3) : c]`. -/
def find_previous_text_blocks (fs : List Block) (c : Nat) : List Block :=
  (fs.drop (c - 3)).take (c - (c - 3))

/-- `_find_next_text_blocks`: `pymupdf_output[c : min(len, c+3)]`. -/
def find_next_text_blocks (fs : List Block) (c : Nat) : List Block :=
  (fs.drop c).take (min fs.length (c + 3) - c)

/-- `_calculate_element_bbox`: zero box when both neighbour lists are empty,
else the merged bbox of all neighbour blocks. -/
def calculate_element_bbox (prev next : List Block) : Box :=
  if prev = [] ∧ next = [] then ⟨0, 0, 0, 0⟩
  else merge_bboxes ((prev ++ next).map Block.bbox)

/-- `_handle_non_text_element`: emit a figure/table element (without a
`"blocks"` key) when a neighbour window exists, else `none`.  The
`layout_output` parameter is accepted and ignored, as in the source. -/
def handle_non_text_element (e : NElem) (fs : List Block) (c : Nat)
    (_ls : List LayoutRegion) : Option Elem :=
  let prev := find_previous_text_blocks fs c
  let next := find_next_text_blocks fs c
  if prev ≠ [] ∨ next ≠ [] then
    some ⟨e.typ, e.text, none, calculate_element_bbox prev next,
      e.page.getD 1, e.confidence.getD 1, false, some (prev, next)⟩
  else none

/-! ## The main pass (`ReconciliationEngine.reconcile`, loop body) -/

/-- One iteration of the main loop of `reconcile` on a structural element:
text kinds go through the window search and the three-way threshold policy
(accept requires a non-empty matched run), figure/table kinds go through
`handle_non_text_element`, other kinds are ignored. -/
def reconcile_step (eng : Engine) (fs : List Block) (ls : List LayoutRegion)
    (e : NElem) (st : RState) : Except String RState :=
  if e.typ ∈ ["header", "paragraph", "list"] then do
    let (matched, newIndex, sim) ←
      find_matching_blocks eng.similarity_method e.text fs st.cursor
    if h : matched ≠ [] ∧ eng.similarity_threshold ≤ sim then
      .ok ⟨st.out ++ [⟨e.typ,
          String.intercalate (" ") (matched.map (fun p => p.2.text)),
          some matched,
          merge_bboxes (matched.map (fun p => p.2.bbox)),
          (matched.head h.1).2.page,
          sim, false, none⟩],
        newIndex,
        st.used ∪ Finset.Ico st.cursor newIndex⟩
    else if eng.hallucination_threshold ≤ sim then
      .ok ⟨st.out ++ [⟨e.typ, e.text, some [], e.bbox.getD ⟨0, 0, 0, 0⟩,
          e.page.getD 1, sim, true, none⟩],
        st.cursor, st.used⟩
    else .ok st
  else if e.typ ∈ ["figure", "table"] then
    match handle_non_text_element e fs st.cursor ls with
    | some el => .ok ⟨st.out ++ [el], st.cursor, st.used⟩
    | none => .ok st
  else .ok st

/-- The main loop of `reconcile` over the structural elements. -/
def reconcile_loop (eng : Engine) (fs : List Block) (ls : List LayoutRegion) :
    List NElem → RState → Except String RState
  | [], st => .ok st
  | e :: rest, st => do
    reconcile_loop eng fs ls rest (← reconcile_step eng fs ls e st)

/-! ## Orphan handling (`_handle_orphan_blocks` and helpers) -/

/-- Python `str.strip()` on the block text (the orphan guard uses only its
truthiness).  Core `String.trim` is equivalent but is defined by position
arithmetic that the kernel cannot evaluate, so we strip the character list
directly. -/
def stripText (s : String) : List Char :=
  ((s.data.dropWhile Char.isWhitespace).reverse.dropWhile Char.isWhitespace).reverse

/-- `_is_within_distance`: same page and center distance at most
`orphan_max_distance` (squared comparison; see `calculate_bbox_dist_sq`). -/
def is_within_distance (eng : Engine) (b : Block) (e : Elem) : Bool :=
  if b.page ≠ e.page then false
  else decide (0 ≤ eng.orphan_max_distance ∧
    calculate_bbox_dist_sq b.bbox e.bbox ≤ eng.orphan_max_distance ^ 2)

/-- The scan of `_find_nearest_element` over the (index-tagged) reconciled
elements, keeping the same-page element of strictly smallest center distance
(first found wins ties); `none` plays the role of `min_distance = inf`. -/
def nearestFold (b : Block) : List (Nat × Elem) → Option (Nat × Elem × ℚ) →
    Option (Nat × Elem × ℚ)
  | [], acc => acc
  | (k, e) :: rest, acc =>
    if e.page = b.page then
      let d := calculate_bbox_dist_sq b.bbox e.bbox
      match acc with
      | none => nearestFold b rest (some (k, e, d))
      | some (k0, e0, d0) =>
        if d < d0 then nearestFold b rest (some (k, e, d))
        else nearestFold b rest (some (k0, e0, d0))
    else nearestFold b rest acc

/-- `_find_nearest_element`.  The source returns a reference to the element
(later mutated in place); references are embedded as the element's position
in the `reconciled` list, returned alongside the element. -/
def find_nearest_element (b : Block) (rec : List Elem) : Option (Nat × Elem) :=
  (nearestFold b rec.enum none).map (fun p => (p.1, p.2.1))

/-- A standalone orphan element for fragment `i`. -/
def orphanElem (i : Nat) (b : Block) : Elem :=
  ⟨"orphan", b.text, some [(i, b)], b.bbox, b.page, 1, false, none⟩

/-- The in-place update orphan absorption performs on the nearest element:
extend the text, append the fragment to `"blocks"` (`bs` is the old list),
merge the bbox. -/
def absorbedElem (e : Elem) (bs : List (Nat × Block)) (i : Nat) (b : Block) : Elem :=
  { e with
    text := e.text ++ " " ++ b.text,
    blocks := some (bs ++ [(i, b)]),
    bbox := merge_bboxes [e.bbox, b.bbox] }

/-- Orphan absorption into the element at position `k` (the source mutates
the dict in place: extend text, append to `"blocks"`, merge bbox).  Reading
the `"blocks"` key of an element that has none is a Python `KeyError`. -/
def absorbInto (rec : List Elem) (k : Nat) (e : Elem) (i : Nat) (b : Block) :
    Except String (List Elem) :=
  match e.blocks with
  | none => .error ("KeyError: blocks")
  | some bs => .ok (rec.set k (absorbedElem e bs i b))

/-- The loop of `_handle_orphan_blocks` over the index-tagged fragments,
carrying the (mutable) `reconciled` list and the `orphan_elements` list. -/
def orphan_loop (eng : Engine) (used : Finset Nat) :
    List (Nat × Block) → List Elem → List Elem →
    Except String (List Elem × List Elem)
  | [], rec, orph => .ok (rec, orph)
  | (i, b) :: rest, rec, orph =>
    if i ∉ used ∧ stripText b.text ≠ [] then
      if rec ≠ [] then
        match find_nearest_element b rec with
        | some (k, e) =>
          if is_within_distance eng b e then do
            let rec' ← absorbInto rec k e i b
            orphan_loop eng used rest rec' orph
          else orphan_loop eng used rest rec (orph ++ [orphanElem i b])
        | none => orphan_loop eng used rest rec (orph ++ [orphanElem i b])
      else orphan_loop eng used rest rec (orph ++ [orphanElem i b])
    else orphan_loop eng used rest rec orph

/-- `_handle_orphan_blocks`: run the orphan loop over all fragments. -/
def handle_orphan_blocks (eng : Engine) (fs : List Block) (used : Finset Nat)
    (rec : List Elem) : Except String (List Elem × List Elem) :=
  orphan_loop eng used fs.enum rec []

/-- `ReconciliationEngine.reconcile`: the main pass from cursor 0 with no
used fragments, then orphan handling, then `reconciled.extend(orphans)`. -/
def reconcile (eng : Engine) (ns : List NElem) (fs : List Block)
    (ls : List LayoutRegion) : Except String (List Elem) := do
  let st ← reconcile_loop eng fs ls ns ⟨[], 0, ∅⟩
  let (rec2, orph) ← handle_orphan_blocks eng fs st.used st.out
  .ok (rec2 ++ orph)

/-! ## Specification-side definitions (for refinement comparisons) -/

/-- The number of occurrences of fragment index `j` in the `blocks` list of
one element (elements without a `"blocks"` key contribute nothing). -/
def elemIdxCount (e : Elem) (j : Nat) : Nat :=
  ((e.blocks.getD []).map Prod.fst).count j

/-- The number of occurrences of fragment index `j` across the `blocks`
lists of a list of elements. -/
def idxCount (es : List Elem) (j : Nat) : Nat :=
  (es.map (fun e => elemIdxCount e j)).sum

/-- The three branches of the threshold policy. -/
inductive Branch where
  | acceptExact
  | acceptFlagged
  | discard
deriving DecidableEq, Repr

/-- Modelled from the spec: the branch dictated purely by which of the bands
`[threshold, 1]`, `[hallucinationThreshold, threshold)`, or
`[0, hallucinationThreshold)` the similarity lies in. -/
def specBranch (τ h s : ℚ) : Branch :=
  if τ ≤ s then .acceptExact else if h ≤ s then .acceptFlagged else .discard

/-- Modelled from the spec: window sizes "from 1 up to
`min(10, remainingFragments)` inclusive". -/
def specWindowSizes (n start : Nat) : List Nat :=
  List.range' 1 (min 10 (n - start))

/-- Modelled from the spec: box `outer` contains box `inner` (the spec's
"the result contains every input box"). -/
def boxContains (outer inner : Box) : Prop :=
  outer.x0 ≤ inner.x0 ∧ outer.y0 ≤ inner.y0 ∧ inner.x1 ≤ outer.x1 ∧ inner.y1 ≤ outer.y1

/-! ## Concrete fixtures used by the witnesses and counterexamples -/

/-- An engine with the source's default configuration values. -/
def engDefault : Engine := ⟨"levenshtein", 4/5, 3/5, 2/5, 100⟩

/-- An engine whose similarity and hallucination thresholds are both 0. -/
def engC6 : Engine := ⟨"levenshtein", 0, 0, 2/5, 100⟩

/-- An engine configured with an unsupported similarity method name. -/
def engBad : Engine := ⟨"bogus", 4/5, 3/5, 2/5, 100⟩

def boxUnit : Box := ⟨0, 0, 1, 1⟩

def boxFar : Box := ⟨1000, 1000, 1001, 1001⟩

def fragThe : Block := ⟨"The", 1, boxUnit⟩

def fragCat : Block := ⟨"cat", 1, boxUnit⟩

def fragSat : Block := ⟨"sat", 1, boxUnit⟩

/-- The final "." fragment of Scenario A, placed far from the others so that
orphan handling cannot silently reattach it. -/
def fragDot : Block := ⟨".", 1, boxFar⟩

def fragsA : List Block := [fragThe, fragCat, fragSat, fragDot]

def paraA : NElem := ⟨"paragraph", "The cat sat", none, none, none⟩

/-- The matched run the window search actually returns in Scenario A. -/
def mbA : List (Nat × Block) := [(0, fragThe), (1, fragCat), (2, fragSat)]

def elemA : Elem := ⟨"paragraph", "The cat sat", some mbA, boxUnit, 1, 1, false, none⟩

def orphA : Elem := ⟨"orphan", ".", some [(3, fragDot)], boxFar, 1, 1, false, none⟩

/-- The main-pass state after Scenario A. -/
def stA : RState := ⟨[elemA], 3, Finset.Ico 0 3⟩

def fragZ : Block := ⟨"zzzz", 1, boxUnit⟩

def fragHW : Block := ⟨"hello world", 1, boxUnit⟩

def fragsS : List Block := [fragZ, fragHW]

def paraH : NElem := ⟨"paragraph", "hello world", none, none, none⟩

def elemH : Elem := ⟨"paragraph", "hello world", some [(1, fragHW)], boxUnit, 1, 1, false, none⟩

/-- The main-pass state of the skipped-fragment run: fragment 0 is marked
used but listed in no element. -/
def stH : RState := ⟨[elemH], 2, Finset.Ico 0 2⟩

def paraX : NElem := ⟨"paragraph", "x", none, none, none⟩

def elemX : Elem := ⟨"paragraph", "x", some [], ⟨0, 0, 0, 0⟩, 1, 0, true, none⟩

def figB : NElem := ⟨"figure", "", none, none, none⟩

def fragP2 : Block := ⟨"x", 2, boxUnit⟩

def elemFigB : Elem := ⟨"figure", "", none, boxUnit, 1, 1, false, some ([], [fragP2])⟩

def orphP2 : Elem := ⟨"orphan", "x", some [(0, fragP2)], boxUnit, 2, 1, false, none⟩

def fragX1 : Block := ⟨"x", 1, boxUnit⟩

/-! ## Helper lemmas: similarity scores -/

theorem calculate_similarity_nonneg {method t1 t2 : String} {q : ℚ}
    (h : calculate_similarity method t1 t2 = .ok q) : 0 ≤ q := by
  unfold calculate_similarity at h
  split at h
  · simp_all
  · split at h
    · simp only [Except.ok.injEq] at h
      subst h
      positivity
    · split at h
      · simp only [Except.ok.injEq] at h
        subst h
        positivity
      · split at h
        · simp only [Except.ok.injEq] at h
          subst h
          simp [cosineSimQ]
        · simp_all

theorem calculate_similarity_empty_right (method t1 : String) :
    calculate_similarity method t1 ("") = .ok 0 := by
  simp [calculate_similarity]

theorem enumWindow_length (fs : List Block) (i w : Nat) :
    (enumWindow fs i w).length = ((fs.drop i).take w).length := by
  simp [enumWindow, List.length_take, List.length_drop, List.enum_length]

theorem windowText_of_enumWindow_nil {fs : List Block} {i w : Nat}
    (h : enumWindow fs i w = []) : windowText fs i w = "" := by
  have hlen : ((fs.drop i).take w).length = 0 := by
    rw [← enumWindow_length, h]
    rfl
  have : (fs.drop i).take w = [] := List.length_eq_zero.mp hlen
  simp [windowText, this]
  rfl

/-! ## Helper lemmas: the window-search loop -/

/-- Unfolding of one iteration of `fmbLoop`, with the `Except` bind exposed
as a match. -/
theorem fmbLoop_cons (method target : String) (fs : List Block)
    (w i : Nat) (rest : List (Nat × Nat)) (st : List (Nat × Block) × Nat × ℚ) :
    fmbLoop method target fs ((w, i) :: rest) st =
      match calculate_similarity method target (windowText fs i w) with
      | .error e => .error e
      | .ok sim => fmbLoop method target fs rest
          (if st.2.2 < sim then (enumWindow fs i w, i + w, sim) else st) := by
  cases h : calculate_similarity method target (windowText fs i w) <;>
    simp only [fmbLoop, h] <;> rfl

theorem fmbLoop_nonneg_mono {method target : String} {fs : List Block} :
    ∀ (pairs : List (Nat × Nat)) (st st' : List (Nat × Block) × Nat × ℚ),
      fmbLoop method target fs pairs st = .ok st' → 0 ≤ st.2.2 →
      0 ≤ st'.2.2 ∧ st.2.2 ≤ st'.2.2 := by
  intro pairs
  induction pairs with
  | nil =>
    intro st st' h h0
    simp only [fmbLoop, Except.ok.injEq] at h
    subst h
    exact ⟨h0, le_refl _⟩
  | cons p rest ih =>
    obtain ⟨w, i⟩ := p
    intro st st' h h0
    rw [fmbLoop_cons] at h
    cases hsim : calculate_similarity method target (windowText fs i w) with
    | error e => rw [hsim] at h; cases h
    | ok s =>
      rw [hsim] at h
      replace h : fmbLoop method target fs rest
          (if st.2.2 < s then (enumWindow fs i w, i + w, s) else st) = .ok st' := h
      by_cases hlt : st.2.2 < s
      · rw [if_pos hlt] at h
        have := ih _ _ h (le_of_lt (lt_of_le_of_lt h0 hlt))
        exact ⟨this.1, le_trans (le_of_lt hlt) this.2⟩
      · rw [if_neg hlt] at h
        exact ih _ _ h h0

theorem fmbLoop_end_ge {method target : String} {fs : List Block} {c : Nat} :
    ∀ (pairs : List (Nat × Nat)) (st st' : List (Nat × Block) × Nat × ℚ),
      fmbLoop method target fs pairs st = .ok st' →
      (∀ p ∈ pairs, c ≤ p.2) → c ≤ st.2.1 → c ≤ st'.2.1 := by
  intro pairs
  induction pairs with
  | nil =>
    intro st st' h _ hc
    simp only [fmbLoop, Except.ok.injEq] at h
    subst h
    exact hc
  | cons p rest ih =>
    obtain ⟨w, i⟩ := p
    intro st st' h hp hc
    rw [fmbLoop_cons] at h
    cases hsim : calculate_similarity method target (windowText fs i w) with
    | error e => rw [hsim] at h; cases h
    | ok s =>
      rw [hsim] at h
      replace h : fmbLoop method target fs rest
          (if st.2.2 < s then (enumWindow fs i w, i + w, s) else st) = .ok st' := h
      by_cases hlt : st.2.2 < s
      · rw [if_pos hlt] at h
        refine ih _ _ h (fun p hq => hp p (List.mem_cons_of_mem _ hq)) ?_
        have : c ≤ i := hp (w, i) (List.mem_cons_self _ _)
        exact le_trans this (Nat.le_add_right i w)
      · rw [if_neg hlt] at h
        exact ih _ _ h (fun p hq => hp p (List.mem_cons_of_mem _ hq)) hc

theorem fmbLoop_optimal {method target : String} {fs : List Block} :
    ∀ (pairs : List (Nat × Nat)) (st st' : List (Nat × Block) × Nat × ℚ),
      fmbLoop method target fs pairs st = .ok st' → 0 ≤ st.2.2 →
      ∀ w i, (w, i) ∈ pairs →
      ∀ q, calculate_similarity method target (windowText fs i w) = .ok q →
      q ≤ st'.2.2 := by
  intro pairs
  induction pairs with
  | nil =>
    intro st st' _ _ w i hmem
    cases hmem
  | cons p rest ih =>
    obtain ⟨w0, i0⟩ := p
    intro st st' h h0 w i hmem q hq
    rw [fmbLoop_cons] at h
    cases hsim : calculate_similarity method target (windowText fs i0 w0) with
    | error e => rw [hsim] at h; cases h
    | ok s =>
      rw [hsim] at h
      replace h : fmbLoop method target fs rest
          (if st.2.2 < s then (enumWindow fs i0 w0, i0 + w0, s) else st) = .ok st' := h
      rcases List.mem_cons.mp hmem with heq | hrest
      · rw [Prod.mk.injEq] at heq
        obtain ⟨rfl, rfl⟩ := heq
        have hqs : q = s := by
          rw [hq] at hsim
          exact (Except.ok.injEq _ _).mp hsim
        rw [hqs]
        by_cases hlt : st.2.2 < s
        · rw [if_pos hlt] at h
          have := fmbLoop_nonneg_mono rest _ _ h (le_trans h0 (le_of_lt hlt))
          exact this.2
        · rw [if_neg hlt] at h
          have := fmbLoop_nonneg_mono rest _ _ h h0
          exact le_trans (not_lt.mp hlt) this.2
      · by_cases hlt : st.2.2 < s
        · rw [if_pos hlt] at h
          exact ih _ _ h (le_trans h0 (le_of_lt hlt)) w i hrest q hq
        · rw [if_neg hlt] at h
          exact ih _ _ h h0 w i hrest q hq

theorem fmbLoop_achieved {method target : String} {fs : List Block} :
    ∀ (pairs : List (Nat × Nat)) (st st' : List (Nat × Block) × Nat × ℚ),
      fmbLoop method target fs pairs st = .ok st' →
      st' = st ∨ ∃ w i, (w, i) ∈ pairs ∧ st'.1 = enumWindow fs i w ∧
        st'.2.1 = i + w ∧
        calculate_similarity method target (windowText fs i w) = .ok st'.2.2 := by
  intro pairs
  induction pairs with
  | nil =>
    intro st st' h
    simp only [fmbLoop, Except.ok.injEq] at h
    exact Or.inl h.symm
  | cons p rest ih =>
    obtain ⟨w0, i0⟩ := p
    intro st st' h
    rw [fmbLoop_cons] at h
    cases hsim : calculate_similarity method target (windowText fs i0 w0) with
    | error e => rw [hsim] at h; cases h
    | ok s =>
      rw [hsim] at h
      replace h : fmbLoop method target fs rest
          (if st.2.2 < s then (enumWindow fs i0 w0, i0 + w0, s) else st) = .ok st' := h
      by_cases hlt : st.2.2 < s
      · rw [if_pos hlt] at h
        rcases ih _ _ h with heq | ⟨w, i, hmem, h1, h2, h3⟩
        · subst heq
          exact Or.inr ⟨w0, i0, List.mem_cons_self _ _, rfl, rfl, hsim⟩
        · exact Or.inr ⟨w, i, List.mem_cons_of_mem _ hmem, h1, h2, h3⟩
      · rw [if_neg hlt] at h
        rcases ih _ _ h with heq | ⟨w, i, hmem, h1, h2, h3⟩
        · exact Or.inl heq
        · exact Or.inr ⟨w, i, List.mem_cons_of_mem _ hmem, h1, h2, h3⟩

theorem fmbLoop_matched_pos {method target : String} {fs : List Block} :
    ∀ (pairs : List (Nat × Nat)) (st st' : List (Nat × Block) × Nat × ℚ),
      fmbLoop method target fs pairs st = .ok st' → 0 ≤ st.2.2 →
      (st.1 ≠ [] ↔ 0 < st.2.2) → (st'.1 ≠ [] ↔ 0 < st'.2.2) := by
  intro pairs
  induction pairs with
  | nil =>
    intro st st' h _ hiff
    simp only [fmbLoop, Except.ok.injEq] at h
    subst h
    exact hiff
  | cons p rest ih =>
    obtain ⟨w0, i0⟩ := p
    intro st st' h h0 hiff
    rw [fmbLoop_cons] at h
    cases hsim : calculate_similarity method target (windowText fs i0 w0) with
    | error e => rw [hsim] at h; cases h
    | ok s =>
      rw [hsim] at h
      replace h : fmbLoop method target fs rest
          (if st.2.2 < s then (enumWindow fs i0 w0, i0 + w0, s) else st) = .ok st' := h
      by_cases hlt : st.2.2 < s
      · rw [if_pos hlt] at h
        have hspos : 0 < s := lt_of_le_of_lt h0 hlt
        refine ih _ _ h (le_of_lt hspos) ?_
        constructor
        · intro _
          exact hspos
        · intro _ hnil
          have := windowText_of_enumWindow_nil hnil
          rw [this, calculate_similarity_empty_right] at hsim
          have : s = 0 := ((Except.ok.injEq _ _).mp hsim).symm
          exact absurd (this ▸ hspos) (lt_irrefl 0)
      · rw [if_neg hlt] at h
        exact ih _ _ h h0 hiff

/-! ## Helper lemmas: the window pair ranges -/

theorem windowPairs_mem {n start w i : Nat} (h : (w, i) ∈ windowPairs n start) :
    1 ≤ w ∧ start ≤ i ∧ i + w ≤ n := by
  simp only [windowPairs, windowSizes, windowOffsets, List.mem_flatMap,
    List.mem_map, List.mem_range'_1] at h
  obtain ⟨w', ⟨hw1, hw2⟩, i', ⟨hi1, hi2⟩, heq⟩ := h
  rw [Prod.mk.injEq] at heq
  obtain ⟨rfl, rfl⟩ := heq
  omega

theorem find_matching_blocks_end_ge {method target : String} {fs : List Block}
    {c : Nat} {mb : List (Nat × Block)} {ni : Nat} {s : ℚ}
    (h : find_matching_blocks method target fs c = .ok (mb, ni, s)) : c ≤ ni := by
  exact fmbLoop_end_ge _ _ _ h (fun p hp => by
    obtain ⟨w, i⟩ := p
    exact (windowPairs_mem hp).2.1) (le_refl c)

theorem find_matching_blocks_nonneg {method target : String} {fs : List Block}
    {c : Nat} {mb : List (Nat × Block)} {ni : Nat} {s : ℚ}
    (h : find_matching_blocks method target fs c = .ok (mb, ni, s)) : 0 ≤ s := by
  exact (fmbLoop_nonneg_mono _ _ _ h (le_refl 0)).1

theorem find_matching_blocks_matched_iff {method target : String} {fs : List Block}
    {c : Nat} {mb : List (Nat × Block)} {ni : Nat} {s : ℚ}
    (h : find_matching_blocks method target fs c = .ok (mb, ni, s)) :
    mb ≠ [] ↔ 0 < s := by
  exact fmbLoop_matched_pos _ _ _ h (le_refl 0) (by simp)

theorem find_matching_blocks_optimal {method target : String} {fs : List Block}
    {c : Nat} {mb : List (Nat × Block)} {ni : Nat} {s : ℚ}
    (h : find_matching_blocks method target fs c = .ok (mb, ni, s)) :
    ∀ w i, (w, i) ∈ windowPairs fs.length c →
    ∀ q, calculate_similarity method target (windowText fs i w) = .ok q → q ≤ s := by
  exact fmbLoop_optimal _ _ _ h (le_refl 0)

theorem find_matching_blocks_achieved {method target : String} {fs : List Block}
    {c : Nat} {mb : List (Nat × Block)} {ni : Nat} {s : ℚ}
    (h : find_matching_blocks method target fs c = .ok (mb, ni, s)) :
    (mb = [] ∧ ni = c ∧ s = 0) ∨
    ∃ w i, (w, i) ∈ windowPairs fs.length c ∧ mb = enumWindow fs i w ∧
      ni = i + w ∧
      calculate_similarity method target (windowText fs i w) = .ok s := by
  rcases fmbLoop_achieved _ _ _ h with heq | ⟨w, i, hmem, h1, h2, h3⟩
  · rw [Prod.mk.injEq, Prod.mk.injEq] at heq
    exact Or.inl ⟨heq.1, heq.2⟩
  · exact Or.inr ⟨w, i, hmem, h1, h2, h3⟩

/-! ## Helper lemmas: window indices -/

theorem range'_drop : ∀ (i s n : Nat), (List.range' s n).drop i = List.range' (s + i) (n - i) := by
  intro i
  induction i with
  | zero => intro s n; simp
  | succ i ih =>
    intro s n
    cases n with
    | zero => simp
    | succ n =>
      rw [List.range'_succ]
      simp only [List.drop_succ_cons]
      rw [ih (s + 1) n]
      congr 1 <;> omega

theorem range'_take : ∀ (w s n : Nat), (List.range' s n).take w = List.range' s (min w n) := by
  intro w
  induction w with
  | zero => intro s n; simp
  | succ w ih =>
    intro s n
    cases n with
    | zero => simp
    | succ n =>
      rw [List.range'_succ, List.take_succ_cons, ih (s + 1) n]
      have : min (w + 1) (n + 1) = min w n + 1 := by omega
      rw [this, List.range'_succ]

theorem enumWindow_map_fst {fs : List Block} {i w : Nat} (h : i + w ≤ fs.length) :
    (enumWindow fs i w).map Prod.fst = List.range' i w := by
  unfold enumWindow
  rw [List.map_take, List.map_drop, List.enum_map_fst, List.range_eq_range',
    range'_drop, range'_take]
  have h1 : 0 + i = i := by omega
  have h2 : min w (fs.length - i) = w := by omega
  rw [h1, h2]

/-! ## Helper lemmas: fragment-index counts -/

theorem idxCount_append (a b : List Elem) (j : Nat) :
    idxCount (a ++ b) j = idxCount a j + idxCount b j := by
  simp [idxCount, List.sum_append]

theorem idxCount_singleton (e : Elem) (j : Nat) :
    idxCount [e] j = elemIdxCount e j := by
  simp [idxCount]

/-! ## Helper lemmas: the main pass -/

theorem reconcile_step_text_eq (eng : Engine) (fs : List Block)
    (ls : List LayoutRegion) (e : NElem) (st : RState)
    (mb : List (Nat × Block)) (ni : Nat) (s : ℚ)
    (htyp : e.typ ∈ ["header", "paragraph", "list"])
    (hfmb : find_matching_blocks eng.similarity_method e.text fs st.cursor = .ok (mb, ni, s)) :
    reconcile_step eng fs ls e st =
      if h : mb ≠ [] ∧ eng.similarity_threshold ≤ s then
        .ok ⟨st.out ++ [⟨e.typ,
            String.intercalate (" ") (mb.map (fun p => p.2.text)),
            some mb,
            merge_bboxes (mb.map (fun p => p.2.bbox)),
            (mb.head h.1).2.page,
            s, false, none⟩],
          ni,
          st.used ∪ Finset.Ico st.cursor ni⟩
      else if eng.hallucination_threshold ≤ s then
        .ok ⟨st.out ++ [⟨e.typ, e.text, some [], e.bbox.getD ⟨0, 0, 0, 0⟩,
            e.page.getD 1, s, true, none⟩],
          st.cursor, st.used⟩
      else .ok st := by
  unfold reconcile_step
  rw [if_pos htyp, hfmb]
  rfl

theorem reconcile_step_fig_eq (eng : Engine) (fs : List Block)
    (ls : List LayoutRegion) (e : NElem) (st : RState)
    (htyp : e.typ ∉ ["header", "paragraph", "list"])
    (hfig : e.typ ∈ ["figure", "table"]) :
    reconcile_step eng fs ls e st =
      match handle_non_text_element e fs st.cursor ls with
      | some el => .ok ⟨st.out ++ [el], st.cursor, st.used⟩
      | none => .ok st := by
  unfold reconcile_step
  rw [if_neg htyp, if_pos hfig]

theorem reconcile_step_other_eq (eng : Engine) (fs : List Block)
    (ls : List LayoutRegion) (e : NElem) (st : RState)
    (htyp : e.typ ∉ ["header", "paragraph", "list"])
    (hfig : e.typ ∉ ["figure", "table"]) :
    reconcile_step eng fs ls e st = .ok st := by
  unfold reconcile_step
  rw [if_neg htyp, if_neg hfig]

theorem handle_non_text_element_blocks {e : NElem} {fs : List Block} {c : Nat}
    {ls : List LayoutRegion} {el : Elem}
    (h : handle_non_text_element e fs c ls = some el) : el.blocks = none := by
  simp only [handle_non_text_element] at h
  split at h
  · simp only [Option.some.injEq] at h
    subst h
    rfl
  · cases h

theorem reconcile_step_inv {eng : Engine} {fs : List Block}
    {ls : List LayoutRegion} {e : NElem} {st st' : RState}
    (h : reconcile_step eng fs ls e st = .ok st')
    (hcount : ∀ j, idxCount st.out j ≤ 1)
    (hused : ∀ j, 0 < idxCount st.out j → j ∈ st.used)
    (hcur : ∀ j ∈ st.used, j < st.cursor) :
    (∀ j, idxCount st'.out j ≤ 1) ∧
    (∀ j, 0 < idxCount st'.out j → j ∈ st'.used) ∧
    (∀ j ∈ st'.used, j < st'.cursor) ∧ st.cursor ≤ st'.cursor := by
  by_cases htyp : e.typ ∈ ["header", "paragraph", "list"]
  · rcases hfmb : find_matching_blocks eng.similarity_method e.text fs st.cursor with er | p
    · unfold reconcile_step at h
      rw [if_pos htyp, hfmb] at h
      replace h : (Except.error er : Except String RState) = .ok st' := h
      cases h
    · obtain ⟨mb, ni, s⟩ := p
      rw [reconcile_step_text_eq eng fs ls e st mb ni s htyp hfmb] at h
      by_cases hacc : mb ≠ [] ∧ eng.similarity_threshold ≤ s
      · rw [dif_pos hacc] at h
        injection h with h'
        subst h'
        rcases find_matching_blocks_achieved hfmb with ⟨hnil, -, -⟩ | ⟨w, i, hmem, hmb, hni, -⟩
        · exact absurd hnil hacc.1
        · obtain ⟨hw1, hci, hiw⟩ := windowPairs_mem hmem
          have hfst : mb.map Prod.fst = List.range' i w := by
            rw [hmb]
            exact enumWindow_map_fst hiw
          have helem : ∀ j, elemIdxCount
              (⟨e.typ, String.intercalate (" ") (mb.map (fun p => p.2.text)),
                some mb, merge_bboxes (mb.map (fun p => p.2.bbox)),
                (mb.head hacc.1).2.page, s, false, none⟩ : Elem) j =
              (List.range' i w).count j := by
            intro j
            simp [elemIdxCount, hfst]
          have hle1 : ∀ j, (List.range' i w).count j ≤ 1 := fun j =>
            List.nodup_iff_count_le_one.mp (List.nodup_range' i w) j
          have hmemr : ∀ j, 0 < (List.range' i w).count j → i ≤ j ∧ j < i + w := by
            intro j hj
            exact List.mem_range'_1.mp (List.count_pos_iff.mp hj)
          refine ⟨?_, ?_, ?_, ?_⟩
          · intro j
            simp only [idxCount_append, idxCount_singleton, helem]
            by_cases hz : (List.range' i w).count j = 0
            · rw [hz]
              simpa using hcount j
            · have hpos : 0 < (List.range' i w).count j := Nat.pos_of_ne_zero hz
              have hji := hmemr j hpos
              have hout0 : idxCount st.out j = 0 := by
                by_contra hc
                have := hcur j (hused j (Nat.pos_of_ne_zero hc))
                omega
              have := hle1 j
              omega
          · intro j hj
            simp only [idxCount_append, idxCount_singleton, helem] at hj
            by_cases hz : 0 < idxCount st.out j
            · exact Finset.mem_union_left _ (hused j hz)
            · have hpos : 0 < (List.range' i w).count j := by omega
              have hji := hmemr j hpos
              refine Finset.mem_union_right _ ?_
              rw [Finset.mem_Ico]
              omega
          · intro j hj
            rcases Finset.mem_union.mp hj with hu | hico
            · have := hcur j hu
              simp only
              omega
            · rw [Finset.mem_Ico] at hico
              simp only
              omega
          · simp only
            omega
      · rw [dif_neg hacc] at h
        by_cases hhall : eng.hallucination_threshold ≤ s
        · rw [if_pos hhall] at h
          injection h with h'
          subst h'
          have helem : ∀ j, elemIdxCount
              (⟨e.typ, e.text, some [], e.bbox.getD ⟨0, 0, 0, 0⟩,
                e.page.getD 1, s, true, none⟩ : Elem) j = 0 := by
            intro j
            simp [elemIdxCount]
          refine ⟨?_, ?_, hcur, le_refl _⟩
          · intro j
            simp only [idxCount_append, idxCount_singleton, helem]
            simpa using hcount j
          · intro j hj
            simp only [idxCount_append, idxCount_singleton, helem] at hj
            exact hused j (by omega)
        · rw [if_neg hhall] at h
          injection h with h'
          subst h'
          exact ⟨hcount, hused, hcur, le_refl _⟩
  · by_cases hfig : e.typ ∈ ["figure", "table"]
    · rw [reconcile_step_fig_eq eng fs ls e st htyp hfig] at h
      rcases hel : handle_non_text_element e fs st.cursor ls with _ | el
      · rw [hel] at h
        injection h with h'
        subst h'
        exact ⟨hcount, hused, hcur, le_refl _⟩
      · rw [hel] at h
        injection h with h'
        subst h'
        have hbn := handle_non_text_element_blocks hel
        have helem : ∀ j, elemIdxCount el j = 0 := by
          intro j
          simp [elemIdxCount, hbn]
        refine ⟨?_, ?_, hcur, le_refl _⟩
        · intro j
          simp only [idxCount_append, idxCount_singleton, helem]
          simpa using hcount j
        · intro j hj
          simp only [idxCount_append, idxCount_singleton, helem] at hj
          exact hused j (by omega)
    · rw [reconcile_step_other_eq eng fs ls e st htyp hfig] at h
      injection h with h'
      subst h'
      exact ⟨hcount, hused, hcur, le_refl _⟩

theorem reconcile_loop_cons (eng : Engine) (fs : List Block)
    (ls : List LayoutRegion) (e : NElem) (rest : List NElem) (st : RState) :
    reconcile_loop eng fs ls (e :: rest) st =
      match reconcile_step eng fs ls e st with
      | .error er => .error er
      | .ok st1 => reconcile_loop eng fs ls rest st1 := by
  cases h : reconcile_step eng fs ls e st <;> simp only [reconcile_loop, h] <;> rfl

theorem reconcile_loop_inv {eng : Engine} {fs : List Block} {ls : List LayoutRegion} :
    ∀ (ns : List NElem) (st st' : RState),
      reconcile_loop eng fs ls ns st = .ok st' →
      (∀ j, idxCount st.out j ≤ 1) →
      (∀ j, 0 < idxCount st.out j → j ∈ st.used) →
      (∀ j ∈ st.used, j < st.cursor) →
      (∀ j, idxCount st'.out j ≤ 1) ∧
      (∀ j, 0 < idxCount st'.out j → j ∈ st'.used) ∧
      (∀ j ∈ st'.used, j < st'.cursor) ∧ st.cursor ≤ st'.cursor := by
  intro ns
  induction ns with
  | nil =>
    intro st st' h h1 h2 h3
    simp only [reconcile_loop, Except.ok.injEq] at h
    subst h
    exact ⟨h1, h2, h3, le_refl _⟩
  | cons e rest ih =>
    intro st st' h h1 h2 h3
    rw [reconcile_loop_cons] at h
    cases hstep : reconcile_step eng fs ls e st with
    | error er => rw [hstep] at h; cases h
    | ok st1 =>
      rw [hstep] at h
      obtain ⟨g1, g2, g3, g4⟩ := reconcile_step_inv hstep h1 h2 h3
      obtain ⟨k1, k2, k3, k4⟩ := ih st1 st' h g1 g2 g3
      exact ⟨k1, k2, k3, le_trans g4 k4⟩

theorem reconcile_step_cursor {eng : Engine} {fs : List Block}
    {ls : List LayoutRegion} {e : NElem} {st st' : RState}
    (h : reconcile_step eng fs ls e st = .ok st') : st.cursor ≤ st'.cursor := by
  by_cases htyp : e.typ ∈ ["header", "paragraph", "list"]
  · rcases hfmb : find_matching_blocks eng.similarity_method e.text fs st.cursor with er | p
    · unfold reconcile_step at h
      rw [if_pos htyp, hfmb] at h
      replace h : (Except.error er : Except String RState) = .ok st' := h
      cases h
    · obtain ⟨mb, ni, s⟩ := p
      rw [reconcile_step_text_eq eng fs ls e st mb ni s htyp hfmb] at h
      by_cases hacc : mb ≠ [] ∧ eng.similarity_threshold ≤ s
      · rw [dif_pos hacc] at h
        injection h with h'
        subst h'
        exact find_matching_blocks_end_ge hfmb
      · rw [dif_neg hacc] at h
        by_cases hhall : eng.hallucination_threshold ≤ s
        · rw [if_pos hhall] at h
          injection h with h'
          subst h'
          exact le_refl _
        · rw [if_neg hhall] at h
          injection h with h'
          subst h'
          exact le_refl _
  · by_cases hfig : e.typ ∈ ["figure", "table"]
    · rw [reconcile_step_fig_eq eng fs ls e st htyp hfig] at h
      rcases hel : handle_non_text_element e fs st.cursor ls with _ | el <;> rw [hel] at h <;>
        injection h with h' <;> subst h' <;> exact le_refl _
    · rw [reconcile_step_other_eq eng fs ls e st htyp hfig] at h
      injection h with h'
      subst h'
      exact le_refl _

theorem reconcile_loop_cursor {eng : Engine} {fs : List Block} {ls : List LayoutRegion} :
    ∀ (ns : List NElem) (st st' : RState),
      reconcile_loop eng fs ls ns st = .ok st' → st.cursor ≤ st'.cursor := by
  intro ns
  induction ns with
  | nil =>
    intro st st' h
    simp only [reconcile_loop, Except.ok.injEq] at h
    subst h
    exact le_refl _
  | cons e rest ih =>
    intro st st' h
    rw [reconcile_loop_cons] at h
    cases hstep : reconcile_step eng fs ls e st with
    | error er => rw [hstep] at h; cases h
    | ok st1 =>
      rw [hstep] at h
      exact le_trans (reconcile_step_cursor hstep) (ih st1 st' h)

/-! ## Helper lemmas: orphan handling -/

theorem idxCount_cons (x : Elem) (xs : List Elem) (j : Nat) :
    idxCount (x :: xs) j = elemIdxCount x j + idxCount xs j := by
  simp [idxCount]

theorem nearestFold_mem {b : Block} :
    ∀ (items : List (Nat × Elem)) (acc : Option (Nat × Elem × ℚ)) (r : Nat × Elem × ℚ),
      nearestFold b items acc = some r → acc = some r ∨ (r.1, r.2.1) ∈ items := by
  intro items
  induction items with
  | nil =>
    intro acc r h
    simp only [nearestFold] at h
    exact Or.inl h
  | cons p rest ih =>
    obtain ⟨k1, e1⟩ := p
    intro acc r h
    simp only [nearestFold] at h
    by_cases hpg : e1.page = b.page
    · rw [if_pos hpg] at h
      cases acc with
      | none =>
        rcases ih _ _ h with hacc | hmem
        · simp only [Option.some.injEq] at hacc
          subst hacc
          exact Or.inr (List.mem_cons_self _ _)
        · exact Or.inr (List.mem_cons_of_mem _ hmem)
      | some q =>
        obtain ⟨k0, e0, d0⟩ := q
        replace h : (if calculate_bbox_dist_sq b.bbox e1.bbox < d0 then
            nearestFold b rest (some (k1, e1, calculate_bbox_dist_sq b.bbox e1.bbox))
          else nearestFold b rest (some (k0, e0, d0))) = some r := h
        by_cases hd : calculate_bbox_dist_sq b.bbox e1.bbox < d0
        · rw [if_pos hd] at h
          rcases ih _ _ h with hacc | hmem
          · simp only [Option.some.injEq] at hacc
            subst hacc
            exact Or.inr (List.mem_cons_self _ _)
          · exact Or.inr (List.mem_cons_of_mem _ hmem)
        · rw [if_neg hd] at h
          rcases ih _ _ h with hacc | hmem
          · exact Or.inl hacc
          · exact Or.inr (List.mem_cons_of_mem _ hmem)
    · rw [if_neg hpg] at h
      rcases ih _ _ h with hacc | hmem
      · exact Or.inl hacc
      · exact Or.inr (List.mem_cons_of_mem _ hmem)

theorem find_nearest_element_get {b : Block} {rec : List Elem} {k : Nat} {e : Elem}
    (h : find_nearest_element b rec = some (k, e)) : rec.get? k = some e := by
  unfold find_nearest_element at h
  cases hf : nearestFold b rec.enum none with
  | none => rw [hf] at h; cases h
  | some r =>
    rw [hf] at h
    simp only [Option.map_some', Option.some.injEq] at h
    rcases nearestFold_mem _ _ _ hf with hacc | hmem
    · cases hacc
    · rw [List.mem_enum_iff_getElem?] at hmem
      simp only at hmem
      rw [Prod.mk.injEq] at h
      rw [List.get?_eq_getElem?, ← h.1, ← h.2]
      exact hmem

theorem idxCount_set :
    ∀ (rec : List Elem) (k : Nat) (e e' : Elem) (j : Nat),
      rec.get? k = some e →
      idxCount (rec.set k e') j + elemIdxCount e j = idxCount rec j + elemIdxCount e' j := by
  intro rec
  induction rec with
  | nil => intro k e e' j h; cases h
  | cons x xs ih =>
    intro k e e' j h
    cases k with
    | zero =>
      simp only [List.get?] at h
      injection h with h
      subst h
      simp only [List.set, idxCount_cons]
      omega
    | succ k =>
      simp only [List.get?] at h
      simp only [List.set, idxCount_cons]
      have := ih k e e' j h
      omega

theorem elemIdxCount_absorbedElem (e : Elem) (bs : List (Nat × Block))
    (i : Nat) (b : Block) (j : Nat) (hbl : e.blocks = some bs) :
    elemIdxCount (absorbedElem e bs i b) j =
      elemIdxCount e j + (if j = i then 1 else 0) := by
  simp only [absorbedElem, elemIdxCount, hbl, Option.getD_some, List.map_append,
    List.count_append, List.map_cons, List.map_nil, List.count_singleton]
  by_cases hji : j = i
  · subst hji
    simp
  · simp [hji, Ne.symm hji]

theorem absorbInto_count {rec : List Elem} {k : Nat} {e : Elem} {i : Nat}
    {b : Block} {rec' : List Elem}
    (h : absorbInto rec k e i b = .ok rec') (hget : rec.get? k = some e) :
    ∀ j, idxCount rec' j = idxCount rec j + (if j = i then 1 else 0) := by
  intro j
  unfold absorbInto at h
  cases hbl : e.blocks with
  | none => rw [hbl] at h; cases h
  | some bs =>
    rw [hbl] at h
    injection h with h
    subst h
    have hset := idxCount_set rec k e (absorbedElem e bs i b) j hget
    have he := elemIdxCount_absorbedElem e bs i b j hbl
    omega

theorem elemIdxCount_orphanElem (i : Nat) (b : Block) (j : Nat) :
    elemIdxCount (orphanElem i b) j = if j = i then 1 else 0 := by
  simp only [orphanElem, elemIdxCount, Option.getD_some, List.map_cons, List.map_nil,
    List.count_singleton]
  by_cases hji : j = i
  · subst hji
    simp
  · simp [hji, Ne.symm hji]

theorem orphan_loop_cons_step {eng : Engine} {used : Finset Nat} {i : Nat}
    {b : Block} {rest : List (Nat × Block)} {rec orph : List Elem}
    {res : List Elem × List Elem}
    (h : orphan_loop eng used ((i, b) :: rest) rec orph = .ok res) :
    (¬(i ∉ used ∧ stripText b.text ≠ []) ∧ orphan_loop eng used rest rec orph = .ok res) ∨
    ((i ∉ used ∧ stripText b.text ≠ []) ∧ ∃ rec2 orph2,
      orphan_loop eng used rest rec2 orph2 = .ok res ∧
      ((∃ k e, find_nearest_element b rec = some (k, e) ∧ rec.get? k = some e ∧
          absorbInto rec k e i b = .ok rec2 ∧ orph2 = orph) ∨
        (rec2 = rec ∧ orph2 = orph ++ [orphanElem i b]))) := by
  simp only [orphan_loop] at h
  by_cases hg : i ∉ used ∧ stripText b.text ≠ []
  · rw [if_pos hg] at h
    by_cases hne : rec ≠ []
    · rw [if_pos hne] at h
      cases hfind : find_nearest_element b rec with
      | none =>
        rw [hfind] at h
        exact Or.inr ⟨hg, rec, orph ++ [orphanElem i b], h, Or.inr ⟨rfl, rfl⟩⟩
      | some p =>
        obtain ⟨k, e⟩ := p
        rw [hfind] at h
        replace h : (if is_within_distance eng b e = true then do
            let rec2 ← absorbInto rec k e i b
            orphan_loop eng used rest rec2 orph
          else orphan_loop eng used rest rec (orph ++ [orphanElem i b])) = .ok res := h
        by_cases hw : is_within_distance eng b e = true
        · rw [if_pos hw] at h
          cases habs : absorbInto rec k e i b with
          | error er =>
            rw [habs] at h
            replace h : (Except.error er : Except String (List Elem × List Elem)) = .ok res := h
            cases h
          | ok rec2 =>
            rw [habs] at h
            replace h : orphan_loop eng used rest rec2 orph = .ok res := h
            exact Or.inr ⟨hg, rec2, orph, h,
              Or.inl ⟨k, e, rfl, find_nearest_element_get hfind, habs, rfl⟩⟩
        · rw [if_neg hw] at h
          exact Or.inr ⟨hg, rec, orph ++ [orphanElem i b], h, Or.inr ⟨rfl, rfl⟩⟩
    · rw [if_neg hne] at h
      exact Or.inr ⟨hg, rec, orph ++ [orphanElem i b], h, Or.inr ⟨rfl, rfl⟩⟩
  · rw [if_neg hg] at h
    exact Or.inl ⟨hg, h⟩

theorem orphan_step_count {i : Nat} {b : Block} {rec orph rec2 orph2 : List Elem}
    (hbr : (∃ k e, find_nearest_element b rec = some (k, e) ∧ rec.get? k = some e ∧
        absorbInto rec k e i b = .ok rec2 ∧ orph2 = orph) ∨
      (rec2 = rec ∧ orph2 = orph ++ [orphanElem i b])) :
    ∀ j, idxCount (rec2 ++ orph2) j =
      idxCount (rec ++ orph) j + (if j = i then 1 else 0) := by
  intro j
  rcases hbr with ⟨k, e, _, hget, habs, rfl⟩ | ⟨rfl, rfl⟩
  · rw [idxCount_append, idxCount_append, absorbInto_count habs hget j]
    omega
  · rw [idxCount_append, idxCount_append, idxCount_append, idxCount_singleton,
      elemIdxCount_orphanElem]
    omega

theorem orphan_loop_untouched {eng : Engine} {used : Finset Nat} :
    ∀ (items : List (Nat × Block)) (rec orph rec' orph' : List Elem),
      orphan_loop eng used items rec orph = .ok (rec', orph') →
      ∀ j, (j ∈ used ∨ j ∉ items.map Prod.fst) →
      idxCount (rec' ++ orph') j = idxCount (rec ++ orph) j := by
  intro items
  induction items with
  | nil =>
    intro rec orph rec' orph' h j _
    simp only [orphan_loop, Except.ok.injEq, Prod.mk.injEq] at h
    rw [h.1, h.2]
  | cons p rest ih =>
    obtain ⟨i, b⟩ := p
    intro rec orph rec' orph' h j hj
    have hjrest : j ∈ used ∨ j ∉ rest.map Prod.fst := by
      rcases hj with hu | hnm
      · exact Or.inl hu
      · refine Or.inr fun hc => hnm ?_
        simp only [List.map_cons, List.mem_cons]
        exact Or.inr hc
    rcases orphan_loop_cons_step h with ⟨_, h'⟩ | ⟨hg, rec2, orph2, h', hbr⟩
    · exact ih rec orph rec' orph' h' j hjrest
    · have hji : j ≠ i := by
        rcases hj with hu | hnm
        · intro hc
          subst hc
          exact hg.1 hu
        · intro hc
          subst hc
          exact hnm (by simp)
      have hstep := orphan_step_count hbr j
      rw [if_neg hji] at hstep
      rw [ih rec2 orph2 rec' orph' h' j hjrest, hstep]
      omega

theorem orphan_loop_counts {eng : Engine} {used : Finset Nat} :
    ∀ (items : List (Nat × Block)) (rec orph rec' orph' : List Elem),
      orphan_loop eng used items rec orph = .ok (rec', orph') →
      (items.map Prod.fst).Nodup →
      (∀ p ∈ items, p.1 ∉ used → idxCount (rec ++ orph) p.1 = 0) →
      (∀ j, idxCount (rec ++ orph) j ≤ 1) →
      (∀ j, idxCount (rec' ++ orph') j ≤ 1) ∧
      (∀ p ∈ items, p.1 ∉ used → stripText p.2.text ≠ [] →
        idxCount (rec' ++ orph') p.1 = 1) := by
  intro items
  induction items with
  | nil =>
    intro rec orph rec' orph' h _ _ hle
    simp only [orphan_loop, Except.ok.injEq, Prod.mk.injEq] at h
    obtain ⟨rfl, rfl⟩ := h
    exact ⟨hle, fun p hp => absurd hp (List.not_mem_nil p)⟩
  | cons p0 rest ih =>
    obtain ⟨i, b⟩ := p0
    intro rec orph rec' orph' h hnd hzero hle
    rw [List.map_cons, List.nodup_cons] at hnd
    obtain ⟨hinotin, hnd'⟩ := hnd
    rcases orphan_loop_cons_step h with ⟨hg, h'⟩ | ⟨hg, rec2, orph2, h', hbr⟩
    · obtain ⟨g1, g2⟩ := ih rec orph rec' orph' h' hnd'
        (fun p hp hpu => hzero p (List.mem_cons_of_mem _ hp) hpu) hle
      refine ⟨g1, fun p hp hpu hpt => ?_⟩
      rcases List.mem_cons.mp hp with rfl | hp'
      · exact absurd ⟨hpu, hpt⟩ hg
      · exact g2 p hp' hpu hpt
    · have hstep := orphan_step_count hbr
      have hz0 : idxCount (rec ++ orph) i = 0 :=
        hzero (i, b) (List.mem_cons_self _ _) hg.1
      have hz' : ∀ p ∈ rest, p.1 ∉ used → idxCount (rec2 ++ orph2) p.1 = 0 := by
        intro p hp hpu
        have hne : p.1 ≠ i := by
          intro hc
          have hmm := List.mem_map_of_mem Prod.fst hp
          rw [hc] at hmm
          exact hinotin hmm
        rw [hstep p.1, if_neg hne]
        simpa using hzero p (List.mem_cons_of_mem _ hp) hpu
      have hle' : ∀ j, idxCount (rec2 ++ orph2) j ≤ 1 := by
        intro j
        rw [hstep j]
        by_cases hji : j = i
        · subst hji
          rw [hz0]
          simp
        · rw [if_neg hji]
          simpa using hle j
      obtain ⟨g1, g2⟩ := ih rec2 orph2 rec' orph' h' hnd' hz' hle'
      refine ⟨g1, fun p hp hpu hpt => ?_⟩
      rcases List.mem_cons.mp hp with rfl | hp'
      · have := orphan_loop_untouched rest rec2 orph2 rec' orph' h' i (Or.inr hinotin)
        rw [this, hstep i, if_pos rfl, hz0]
      · exact g2 p hp' hpu hpt

/-! ## Helper lemmas: bounding-box merge -/

theorem boxContains_refl (a : Box) : boxContains a a :=
  ⟨le_refl _, le_refl _, le_refl _, le_refl _⟩

theorem boxContains_trans {a b c : Box} (h1 : boxContains a b) (h2 : boxContains b c) :
    boxContains a c :=
  ⟨le_trans h1.1 h2.1, le_trans h1.2.1 h2.2.1,
    le_trans h2.2.2.1 h1.2.2.1, le_trans h2.2.2.2 h1.2.2.2⟩

theorem mergeStep_contains_left (a b : Box) : boxContains (mergeStep a b) a :=
  ⟨min_le_left _ _, min_le_left _ _, le_max_left _ _, le_max_left _ _⟩

theorem mergeStep_contains_right (a b : Box) : boxContains (mergeStep a b) b :=
  ⟨min_le_right _ _, min_le_right _ _, le_max_right _ _, le_max_right _ _⟩

theorem boxContains_mergeStep {c a b : Box} (h1 : boxContains c a)
    (h2 : boxContains c b) : boxContains c (mergeStep a b) :=
  ⟨le_min h1.1 h2.1, le_min h1.2.1 h2.2.1,
    max_le h1.2.2.1 h2.2.2.1, max_le h1.2.2.2 h2.2.2.2⟩

theorem foldl_mergeStep_contains :
    ∀ (l : List Box) (a : Box),
      boxContains (l.foldl mergeStep a) a ∧ ∀ b ∈ l, boxContains (l.foldl mergeStep a) b := by
  intro l
  induction l with
  | nil =>
    intro a
    exact ⟨boxContains_refl a, fun b hb => absurd hb (List.not_mem_nil b)⟩
  | cons x xs ih =>
    intro a
    obtain ⟨h1, h2⟩ := ih (mergeStep a x)
    refine ⟨boxContains_trans h1 (mergeStep_contains_left a x), fun b hb => ?_⟩
    rcases List.mem_cons.mp hb with rfl | hb'
    · exact boxContains_trans h1 (mergeStep_contains_right a b)
    · exact h2 b hb'

theorem foldl_mergeStep_least :
    ∀ (l : List Box) (a c : Box),
      boxContains c a → (∀ b ∈ l, boxContains c b) →
      boxContains c (l.foldl mergeStep a) := by
  intro l
  induction l with
  | nil =>
    intro a c h1 _
    exact h1
  | cons x xs ih =>
    intro a c h1 h2
    exact ih (mergeStep a x) c
      (boxContains_mergeStep h1 (h2 x (List.mem_cons_self _ _)))
      (fun b hb => h2 b (List.mem_cons_of_mem _ hb))

/-! ## Helper lemmas: the discard threshold is never read -/

theorem reconcile_step_discard_irrel (m : String) (τ hτ d1 d2 mx : ℚ)
    (fs : List Block) (ls : List LayoutRegion) (e : NElem) (st : RState) :
    reconcile_step ⟨m, τ, hτ, d1, mx⟩ fs ls e st =
      reconcile_step ⟨m, τ, hτ, d2, mx⟩ fs ls e st := rfl

theorem reconcile_loop_discard_irrel (m : String) (τ hτ d1 d2 mx : ℚ)
    (fs : List Block) (ls : List LayoutRegion) :
    ∀ (ns : List NElem) (st : RState),
      reconcile_loop ⟨m, τ, hτ, d1, mx⟩ fs ls ns st =
        reconcile_loop ⟨m, τ, hτ, d2, mx⟩ fs ls ns st := by
  intro ns
  induction ns with
  | nil => intro st; rfl
  | cons e rest ih =>
    intro st
    rw [reconcile_loop_cons, reconcile_loop_cons,
      reconcile_step_discard_irrel m τ hτ d1 d2 mx fs ls e st]
    cases reconcile_step ⟨m, τ, hτ, d2, mx⟩ fs ls e st with
    | error er => rfl
    | ok st1 => exact ih st1

theorem is_within_distance_discard_irrel (m : String) (τ hτ d1 d2 mx : ℚ)
    (b : Block) (e : Elem) :
    is_within_distance ⟨m, τ, hτ, d1, mx⟩ b e =
      is_within_distance ⟨m, τ, hτ, d2, mx⟩ b e := rfl

theorem orphan_loop_discard_irrel (m : String) (τ hτ d1 d2 mx : ℚ) :
    ∀ (items : List (Nat × Block)) (used : Finset Nat) (rec orph : List Elem),
      orphan_loop ⟨m, τ, hτ, d1, mx⟩ used items rec orph =
        orphan_loop ⟨m, τ, hτ, d2, mx⟩ used items rec orph := by
  intro items
  induction items with
  | nil => intro used rec orph; rfl
  | cons p rest ih =>
    obtain ⟨i, b⟩ := p
    intro used rec orph
    simp only [orphan_loop]
    by_cases hg : i ∉ used ∧ stripText b.text ≠ []
    · rw [if_pos hg, if_pos hg]
      by_cases hne : rec ≠ []
      · rw [if_pos hne, if_pos hne]
        cases hfind : find_nearest_element b rec with
        | none => exact ih used rec (orph ++ [orphanElem i b])
        | some q =>
          obtain ⟨k, e⟩ := q
          show (if is_within_distance ⟨m, τ, hτ, d1, mx⟩ b e = true then do
              let rec2 ← absorbInto rec k e i b
              orphan_loop ⟨m, τ, hτ, d1, mx⟩ used rest rec2 orph
            else orphan_loop ⟨m, τ, hτ, d1, mx⟩ used rest rec (orph ++ [orphanElem i b])) =
            (if is_within_distance ⟨m, τ, hτ, d2, mx⟩ b e = true then do
              let rec2 ← absorbInto rec k e i b
              orphan_loop ⟨m, τ, hτ, d2, mx⟩ used rest rec2 orph
            else orphan_loop ⟨m, τ, hτ, d2, mx⟩ used rest rec (orph ++ [orphanElem i b]))
          rw [← is_within_distance_discard_irrel m τ hτ d1 d2 mx b e]
          by_cases hw : is_within_distance ⟨m, τ, hτ, d1, mx⟩ b e = true
          · rw [if_pos hw, if_pos hw]
            cases habs : absorbInto rec k e i b with
            | error er => rfl
            | ok rec2 => exact ih used rec2 orph
          · rw [if_neg hw, if_neg hw]
            exact ih used rec (orph ++ [orphanElem i b])
      · rw [if_neg hne, if_neg hne]
        exact ih used rec (orph ++ [orphanElem i b])
    · rw [if_neg hg, if_neg hg]
      exact ih used rec orph

theorem handle_orphan_blocks_discard_irrel (m : String) (τ hτ d1 d2 mx : ℚ)
    (fs : List Block) (used : Finset Nat) (rec : List Elem) :
    handle_orphan_blocks ⟨m, τ, hτ, d1, mx⟩ fs used rec =
      handle_orphan_blocks ⟨m, τ, hτ, d2, mx⟩ fs used rec :=
  orphan_loop_discard_irrel m τ hτ d1 d2 mx fs.enum used rec []

/-! ## Stage composition -/

theorem reconcile_eq_of_stages {eng : Engine} {ns : List NElem} {fs : List Block}
    {ls : List LayoutRegion} {st : RState} {rec2 orph : List Elem}
    (hmain : reconcile_loop eng fs ls ns ⟨[], 0, ∅⟩ = .ok st)
    (horph : handle_orphan_blocks eng fs st.used st.out = .ok (rec2, orph)) :
    reconcile eng ns fs ls = .ok (rec2 ++ orph) := by
  unfold reconcile
  rw [hmain]
  show Except.bind (handle_orphan_blocks eng fs st.used st.out)
    (fun p => (Except.ok (p.1 ++ p.2) : Except String (List Elem))) = .ok (rec2 ++ orph)
  rw [horph]
  rfl

section

/- The concrete witness evaluations below reduce rational arithmetic inside
the kernel; core marks `Rat` arithmetic irreducible only to keep `simp`
normal forms small, so it is made semireducible locally. -/
attribute [local semireducible] Rat.mul Rat.inv Rat.add Rat.sub

set_option maxRecDepth 8000

/-! ## Claim theorems -/

/-- C1: in every reconciliation run (main pass `reconcile_loop` from the
initial state, then orphan handling), every ground-truth fragment index
occurs at most once across the `blocks` lists of the main-pass output, at
most once across the final output, and orphan absorption adds each
unconsumed non-blank fragment to exactly one element, exactly once (its
total multiplicity in the final output is exactly 1). -/
theorem c1_fragment_uniqueness (eng : Engine) (ns : List NElem) (fs : List Block)
    (ls : List LayoutRegion) (st : RState) (rec2 orph : List Elem)
    (hmain : reconcile_loop eng fs ls ns ⟨[], 0, ∅⟩ = .ok st)
    (horph : handle_orphan_blocks eng fs st.used st.out = .ok (rec2, orph)) :
    reconcile eng ns fs ls = .ok (rec2 ++ orph) ∧
    (∀ j, idxCount st.out j ≤ 1) ∧
    (∀ j, idxCount (rec2 ++ orph) j ≤ 1) ∧
    (∀ j b, fs.get? j = some b → j ∉ st.used → stripText b.text ≠ [] →
      idxCount (rec2 ++ orph) j = 1) := by
  obtain ⟨hc1, hc2, hc3, -⟩ := reconcile_loop_inv ns ⟨[], 0, ∅⟩ st hmain
    (by intro j; simp [idxCount])
    (by intro j hj; simp [idxCount] at hj)
    (by intro j hj; simp at hj)
  have hrec := reconcile_eq_of_stages hmain horph
  unfold handle_orphan_blocks at horph
  have hnodup : ((fs.enum).map Prod.fst).Nodup := by
    rw [List.enum_map_fst]
    exact List.nodup_range _
  have hzero : ∀ p ∈ fs.enum, p.1 ∉ st.used → idxCount (st.out ++ []) p.1 = 0 := by
    intro p _ hpu
    rw [List.append_nil]
    by_contra hne
    exact hpu (hc2 p.1 (Nat.pos_of_ne_zero hne))
  have hle : ∀ j, idxCount (st.out ++ []) j ≤ 1 := by
    intro j
    rw [List.append_nil]
    exact hc1 j
  obtain ⟨g1, g2⟩ := orphan_loop_counts fs.enum st.out [] rec2 orph horph hnodup hzero hle
  refine ⟨hrec, hc1, g1, ?_⟩
  intro j b hget hju hbt
  have hmem : (j, b) ∈ fs.enum := by
    rw [List.mem_enum_iff_getElem?]
    show fs[j]? = some b
    rw [← List.get?_eq_getElem?]
    exact hget
  exact g2 (j, b) hmem hju hbt

/-- Witness for C1 on Scenario A: the run accepts fragments 0–2 and leaves
the far-away "." fragment (index 3) unconsumed and non-blank; it ends up in
exactly one element of the output. -/
theorem c1_fragment_uniqueness_witness :
    reconcile engDefault [paraA] fragsA [] = .ok ([elemA] ++ [orphA]) ∧
    (∀ j, idxCount stA.out j ≤ 1) ∧
    (∀ j, idxCount ([elemA] ++ [orphA]) j ≤ 1) ∧
    (∀ j b, fragsA.get? j = some b → j ∉ stA.used → stripText b.text ≠ [] →
      idxCount ([elemA] ++ [orphA]) j = 1) :=
  c1_fragment_uniqueness engDefault [paraA] fragsA [] stA [elemA] [orphA]
    (by rfl) (by rfl)

/-- C10: a fragment index that the main pass marked consumed but that occurs
in no main-pass element's `blocks` (the indices skipped over when an accepted
window starts after the cursor) occurs in no element of the final output at
all: it is neither emitted as an orphan nor absorbed, so its text is absent
from the entire output. -/
theorem c10_skipped_fragments_lost (eng : Engine) (ns : List NElem) (fs : List Block)
    (ls : List LayoutRegion) (st : RState) (rec2 orph : List Elem) (j : Nat)
    (hmain : reconcile_loop eng fs ls ns ⟨[], 0, ∅⟩ = .ok st)
    (horph : handle_orphan_blocks eng fs st.used st.out = .ok (rec2, orph))
    (hju : j ∈ st.used) (hz : idxCount st.out j = 0) :
    idxCount (rec2 ++ orph) j = 0 ∧ reconcile eng ns fs ls = .ok (rec2 ++ orph) := by
  have hrec := reconcile_eq_of_stages hmain horph
  unfold handle_orphan_blocks at horph
  have huntouched := orphan_loop_untouched fs.enum st.out [] rec2 orph horph j (Or.inl hju)
  rw [List.append_nil] at huntouched
  exact ⟨huntouched.trans hz, hrec⟩

/-- Witness for C10: structural text "hello world" against fragments
`["zzzz", "hello world"]` — the best window is the single fragment at index
1, so index 0 is marked used, listed nowhere, and absent from the output. -/
theorem c10_skipped_fragments_lost_witness :
    idxCount ([elemH] ++ []) 0 = 0 ∧
    reconcile engDefault [paraH] fragsS [] = .ok ([elemH] ++ []) :=
  c10_skipped_fragments_lost engDefault [paraH] fragsS [] stH [elemH] [] 0
    (by rfl) (by rfl) (by decide) (by decide)

/-- C7: the fragment cursor of the main pass is non-decreasing across the
whole document (any run of `reconcile_loop` from any state), and the window
search itself never returns a new index smaller than its start index. -/
theorem c7_monotonic_cursor :
    (∀ (eng : Engine) (fs : List Block) (ls : List LayoutRegion)
      (ns : List NElem) (st st' : RState),
      reconcile_loop eng fs ls ns st = .ok st' → st.cursor ≤ st'.cursor) ∧
    (∀ (method target : String) (fs : List Block) (c : Nat)
      (mb : List (Nat × Block)) (ni : Nat) (s : ℚ),
      find_matching_blocks method target fs c = .ok (mb, ni, s) → c ≤ ni) :=
  ⟨fun _ _ _ ns st st' h => reconcile_loop_cursor ns st st' h,
   fun _ _ _ _ _ _ _ h => find_matching_blocks_end_ge h⟩

/-- Witness for C7 on two concrete runs. -/
theorem c7_monotonic_cursor_witness :
    (⟨[], 0, ∅⟩ : RState).cursor ≤ stH.cursor ∧ (0 : Nat) ≤ 3 :=
  ⟨c7_monotonic_cursor.1 engDefault fragsS [] [paraH] ⟨[], 0, ∅⟩ stH (by rfl),
   c7_monotonic_cursor.2 ("levenshtein") ("The cat sat") fragsA 0 mbA 3 1 (by rfl)⟩

/-- C8: the reconciled output is independent of the
`hallucination.discard_threshold` configuration value — two engines that
agree on everything else produce identical results on all inputs (the field
is stored by `__init__` but never read by the reconciliation pass). -/
theorem c8_discard_threshold_unused (m : String) (τ hτ d1 d2 mx : ℚ)
    (ns : List NElem) (fs : List Block) (ls : List LayoutRegion) :
    reconcile ⟨m, τ, hτ, d1, mx⟩ ns fs ls = reconcile ⟨m, τ, hτ, d2, mx⟩ ns fs ls := by
  unfold reconcile
  rw [reconcile_loop_discard_irrel m τ hτ d1 d2 mx fs ls ns ⟨[], 0, ∅⟩]
  cases hst : reconcile_loop ⟨m, τ, hτ, d2, mx⟩ fs ls ns ⟨[], 0, ∅⟩ with
  | error er => rfl
  | ok st =>
    show Except.bind (handle_orphan_blocks ⟨m, τ, hτ, d1, mx⟩ fs st.used st.out)
        (fun p => (Except.ok (p.1 ++ p.2) : Except String (List Elem))) =
      Except.bind (handle_orphan_blocks ⟨m, τ, hτ, d2, mx⟩ fs st.used st.out)
        (fun p => (Except.ok (p.1 ++ p.2) : Except String (List Elem)))
    rw [handle_orphan_blocks_discard_irrel m τ hτ d1 d2 mx fs st.used st.out]

/-- C9: `merge_bboxes` returns the all-zero box on `[]`; on any list it
contains every input box; and on a non-empty list it is the least such box
(equivalently, its sides are the componentwise min of lefts/tops and max of
rights/bottoms). -/
theorem c9_merge_bboxes (bs : List Box) :
    (bs = [] → merge_bboxes bs = ⟨0, 0, 0, 0⟩) ∧
    (∀ b ∈ bs, boxContains (merge_bboxes bs) b) ∧
    (bs ≠ [] → ∀ c : Box, (∀ b ∈ bs, boxContains c b) →
      boxContains c (merge_bboxes bs)) := by
  cases bs with
  | nil =>
    exact ⟨fun _ => rfl, fun b hb => absurd hb (List.not_mem_nil b),
      fun h => absurd rfl h⟩
  | cons x xs =>
    refine ⟨fun h => absurd h (List.cons_ne_nil x xs), ?_, ?_⟩
    · intro b hb
      obtain ⟨h1, h2⟩ := foldl_mergeStep_contains xs x
      rcases List.mem_cons.mp hb with rfl | hb'
      · exact h1
      · exact h2 b hb'
    · intro _ c hc
      exact foldl_mergeStep_least xs x c (hc x (List.mem_cons_self _ _))
        (fun b hb => hc b (List.mem_cons_of_mem _ hb))

/-- Witness for C9 on a concrete two-box list. -/
theorem c9_merge_bboxes_witness :
    merge_bboxes [] = ⟨0, 0, 0, 0⟩ ∧
    boxContains (merge_bboxes [boxUnit, boxFar]) boxFar ∧
    boxContains ⟨0, 0, 2000, 2000⟩ (merge_bboxes [boxUnit, boxFar]) :=
  ⟨(c9_merge_bboxes []).1 rfl,
   (c9_merge_bboxes [boxUnit, boxFar]).2.1 boxFar (by simp),
   (c9_merge_bboxes [boxUnit, boxFar]).2.2 (by simp) ⟨0, 0, 2000, 2000⟩
     (by
       intro b hb
       rcases List.mem_cons.mp hb with rfl | hb'
       · exact ⟨by norm_num [boxUnit], by norm_num [boxUnit], by norm_num [boxUnit],
           by norm_num [boxUnit]⟩
       · rcases List.mem_cons.mp hb' with rfl | hb''
         · exact ⟨by norm_num [boxFar], by norm_num [boxFar], by norm_num [boxFar],
             by norm_num [boxFar]⟩
         · exact absurd hb'' (List.not_mem_nil b))⟩


/-- C2 counterexample: on Scenario A (structural text "The cat sat",
fragments `["The", "cat", "sat", "."]`, threshold 0.8, method levenshtein)
the accepted element's matched run is the first 3 fragments — not all 4 —
and its reconciled text is "The cat sat", not "The cat sat ." (the exact
3-fragment window scores 1.0 at window size 3 and is never displaced by the
4-fragment window, which scores lower). -/
theorem c2_counterexample :
    reconcile engDefault [paraA] fragsA [] = .ok [elemA, orphA] ∧
    elemA.text ≠ "The cat sat ." ∧
    (elemA.blocks.getD []).length = 3 := by
  exact ⟨rfl, by decide, rfl⟩

/-- C2 amended: Scenario A is accepted with matched run = the first 3
fragments at similarity exactly 1.0 and reconciled text "The cat sat"; the
"." fragment is left unconsumed and (being far from the element) is emitted
as a standalone orphan element. -/
theorem c2_scenario_a :
    find_matching_blocks engDefault.similarity_method paraA.text fragsA 0 =
      .ok (mbA, 3, 1) ∧
    reconcile engDefault [paraA] fragsA [] = .ok [elemA, orphA] ∧
    elemA.text = "The cat sat" ∧ elemA.confidence = 1 ∧
    elemA.hallucination_warning = false ∧ orphA.typ = "orphan" := by
  exact ⟨rfl, rfl, rfl, rfl, rfl, rfl⟩

/-- C3 counterexample: with 10 fragments remaining the code iterates window
sizes 1..9 (`range(1, min(10, remaining + 1))`), while the claim's
`1..min(10, remaining)` inclusive would include 10. -/
theorem c3_counterexample :
    windowSizes 10 0 ≠ specWindowSizes 10 0 ∧
    10 ∈ specWindowSizes 10 0 ∧ 10 ∉ windowSizes 10 0 := by
  decide

/-- C3 amended: the block search iterates window sizes `w` from 1 up to
`min(9, remaining)` inclusive (not `min(10, remaining)`); for each iterated
`(w, i)` pair (offsets `i` from `start` to `len - w`) the returned score is
at least the score of that window's space-joined text; and any non-empty
returned run is one of the iterated windows, achieving the returned score,
with `newIndex = i + w`. -/
theorem c3_window_search (method target : String) (fs : List Block) (c : Nat)
    (mb : List (Nat × Block)) (ni : Nat) (s : ℚ)
    (hfmb : find_matching_blocks method target fs c = .ok (mb, ni, s)) :
    windowSizes fs.length c = List.range' 1 (min 9 (fs.length - c)) ∧
    (∀ w i, (w, i) ∈ windowPairs fs.length c →
      ∀ q, calculate_similarity method target (windowText fs i w) = .ok q → q ≤ s) ∧
    ((mb = [] ∧ ni = c ∧ s = 0) ∨
      ∃ w i, (w, i) ∈ windowPairs fs.length c ∧ mb = enumWindow fs i w ∧
        ni = i + w ∧
        calculate_similarity method target (windowText fs i w) = .ok s) := by
  refine ⟨?_, find_matching_blocks_optimal hfmb, find_matching_blocks_achieved hfmb⟩
  unfold windowSizes
  congr 1
  omega

/-- Witness for C3 on the Scenario A search. -/
theorem c3_window_search_witness :
    windowSizes fragsA.length 0 = List.range' 1 (min 9 (fragsA.length - 0)) ∧
    (∀ w i, (w, i) ∈ windowPairs fragsA.length 0 →
      ∀ q, calculate_similarity ("levenshtein") ("The cat sat")
        (windowText fragsA i w) = .ok q → q ≤ 1) ∧
    ((mbA = [] ∧ 3 = 0 ∧ (1 : ℚ) = 0) ∨
      ∃ w i, (w, i) ∈ windowPairs fragsA.length 0 ∧ mbA = enumWindow fragsA i w ∧
        3 = i + w ∧
        calculate_similarity ("levenshtein") ("The cat sat")
          (windowText fragsA i w) = .ok 1) :=
  c3_window_search ("levenshtein") ("The cat sat") fragsA 0 mbA 3 1 (by rfl)

/-- C4 counterexample: an engine with the unsupported method name `"bogus"`
is constructed without any error, and a run whose elements never reach a
similarity computation (a figure element; the lone fragment sits on another
page) completes normally and produces output — no fatal configuration error
at construction time. -/
theorem c4_counterexample :
    engBad.similarity_method ∉ ["levenshtein", "fuzzy", "cosine"] ∧
    reconcile engBad [figB] [fragP2] [] = .ok [elemFigB, orphP2] := by
  exact ⟨by decide, rfl⟩

/-- The first `(window_size, start_offset)` pair the window search iterates
from cursor 0 over a non-empty fragment list is `(1, 0)`. -/
theorem windowPairs_cons_zero (n0 : Nat) :
    ∃ tl, windowPairs (n0 + 1) 0 = (1, 0) :: tl := by
  unfold windowPairs windowSizes windowOffsets
  have h1 : min 10 (n0 + 1 - 0 + 1) - 1 = (min 10 (n0 + 2) - 2) + 1 := by omega
  rw [h1, List.range'_succ, List.flatMap_cons]
  have h2 : n0 + 1 + 1 - 1 - 0 = n0 + 1 := by omega
  rw [h2, List.range'_succ, List.map_cons, List.cons_append]
  exact ⟨_, rfl⟩

/-- C4 amended: the `ValueError` for an unsupported method is raised lazily
by `calculate_similarity` during the main pass.  In particular, when the
first structural element is a text element with non-empty text and the first
fragment has non-empty text, `reconcile` propagates the error (the very
first window comparison raises); construction itself never validates the
method, and runs that never score text complete normally (see the
counterexample). -/
theorem c4_lazy_method_error (eng : Engine) (e : NElem) (ns : List NElem)
    (b : Block) (rest : List Block) (ls : List LayoutRegion)
    (hm1 : eng.similarity_method ≠ "levenshtein")
    (hm2 : eng.similarity_method ≠ "fuzzy")
    (hm3 : eng.similarity_method ≠ "cosine")
    (htyp : e.typ ∈ ["header", "paragraph", "list"])
    (het : e.text ≠ "") (hbt : b.text ≠ "") :
    reconcile eng (e :: ns) (b :: rest) ls =
      .error ("Unknown similarity method: " ++ eng.similarity_method) := by
  have hwt : windowText (b :: rest) 0 1 = b.text := rfl
  have hcs : calculate_similarity eng.similarity_method e.text
      (windowText (b :: rest) 0 1) =
      .error ("Unknown similarity method: " ++ eng.similarity_method) := by
    rw [hwt]
    unfold calculate_similarity
    rw [if_neg (not_or.mpr ⟨het, hbt⟩), if_neg hm1, if_neg hm2, if_neg hm3]
  obtain ⟨tl, htl⟩ := windowPairs_cons_zero rest.length
  have hfmb : find_matching_blocks eng.similarity_method e.text (b :: rest) 0 =
      .error ("Unknown similarity method: " ++ eng.similarity_method) := by
    unfold find_matching_blocks
    rw [List.length_cons, htl, fmbLoop_cons, hcs]
  have hstep : reconcile_step eng (b :: rest) ls e ⟨[], 0, ∅⟩ =
      .error ("Unknown similarity method: " ++ eng.similarity_method) := by
    unfold reconcile_step
    rw [if_pos htyp]
    have hcur : (⟨[], 0, ∅⟩ : RState).cursor = 0 := rfl
    rw [hcur, hfmb]
    rfl
  unfold reconcile
  rw [reconcile_loop_cons, hstep]
  rfl

/-- Witness for C4's amended statement: the `"bogus"` engine fails on the
first text element of Scenario A. -/
theorem c4_lazy_method_error_witness :
    reconcile engBad (paraA :: []) (fragThe :: [fragCat, fragSat, fragDot]) [] =
      .error ("Unknown similarity method: " ++ engBad.similarity_method) :=
  c4_lazy_method_error engBad paraA [] fragThe [fragCat, fragSat, fragDot] []
    (by decide) (by decide) (by decide) (by decide) (by decide) (by decide)

/-- C5: absorbing an orphan fragment into a nearest element of kind figure
or table raises `KeyError` — those elements are built without a `"blocks"`
key — so the absorption step does NOT complete for elements of every kind.
The run below (one figure element, one nearby unconsumed fragment, default
configuration) crashes. -/
theorem c5_figure_orphan_keyerror :
    reconcile engDefault [figB] [fragX1] [] = .error ("KeyError: blocks") := rfl

/-- C6 counterexample: with `similarity_threshold = 0` and
`hallucination_threshold = 0`, a paragraph with no fragments gets
similarity 0 and an empty matched run; the spec's band `[threshold, 1]`
dictates accept-exact, but the code's accept branch additionally requires a
non-empty matched run, so the accept-flagged branch fires instead (the
output element carries the hallucination warning and the structural text). -/
theorem c6_counterexample :
    reconcile engC6 [paraX] [] [] = .ok [elemX] ∧
    elemX.hallucination_warning = true ∧
    find_matching_blocks engC6.similarity_method paraX.text [] 0 = .ok ([], 0, 0) ∧
    specBranch engC6.similarity_threshold engC6.hallucination_threshold 0 =
      Branch.acceptExact := by
  exact ⟨rfl, rfl, rfl, rfl⟩

/-- C6 amended: provided the similarity threshold is positive (as in every
default configuration), exactly one of accept-exact / accept-flagged /
discard fires for a text element, and which one is determined solely by the
similarity bands `[τ, 1]`, `[h, τ)`, `[0, h)` (`specBranch`); with τ = 0 the
empty-run guard can override the bands (see the counterexample). -/
theorem c6_threshold_partition (eng : Engine) (fs : List Block)
    (ls : List LayoutRegion) (e : NElem) (st : RState)
    (mb : List (Nat × Block)) (ni : Nat) (s : ℚ)
    (hpos : 0 < eng.similarity_threshold)
    (htyp : e.typ ∈ ["header", "paragraph", "list"])
    (hfmb : find_matching_blocks eng.similarity_method e.text fs st.cursor = .ok (mb, ni, s)) :
    (specBranch eng.similarity_threshold eng.hallucination_threshold s = .acceptExact →
      ∃ hmb : mb ≠ [],
        reconcile_step eng fs ls e st = .ok ⟨st.out ++ [⟨e.typ,
          String.intercalate (" ") (mb.map (fun p => p.2.text)), some mb,
          merge_bboxes (mb.map (fun p => p.2.bbox)), (mb.head hmb).2.page,
          s, false, none⟩], ni, st.used ∪ Finset.Ico st.cursor ni⟩) ∧
    (specBranch eng.similarity_threshold eng.hallucination_threshold s = .acceptFlagged →
      reconcile_step eng fs ls e st = .ok ⟨st.out ++ [⟨e.typ, e.text, some [],
        e.bbox.getD ⟨0, 0, 0, 0⟩, e.page.getD 1, s, true, none⟩],
        st.cursor, st.used⟩) ∧
    (specBranch eng.similarity_threshold eng.hallucination_threshold s = .discard →
      reconcile_step eng fs ls e st = .ok st) := by
  have hstep := reconcile_step_text_eq eng fs ls e st mb ni s htyp hfmb
  refine ⟨?_, ?_, ?_⟩ <;> intro hb <;> unfold specBranch at hb
  · by_cases hts : eng.similarity_threshold ≤ s
    · have hmb : mb ≠ [] :=
        (find_matching_blocks_matched_iff hfmb).mpr (lt_of_lt_of_le hpos hts)
      refine ⟨hmb, ?_⟩
      rw [hstep, dif_pos ⟨hmb, hts⟩]
    · rw [if_neg hts] at hb
      by_cases hhs : eng.hallucination_threshold ≤ s
      · rw [if_pos hhs] at hb
        cases hb
      · rw [if_neg hhs] at hb
        cases hb
  · by_cases hts : eng.similarity_threshold ≤ s
    · rw [if_pos hts] at hb
      cases hb
    · rw [if_neg hts] at hb
      by_cases hhs : eng.hallucination_threshold ≤ s
      · rw [hstep, dif_neg (fun hc => hts hc.2), if_pos hhs]
      · rw [if_neg hhs] at hb
        cases hb
  · by_cases hts : eng.similarity_threshold ≤ s
    · rw [if_pos hts] at hb
      cases hb
    · rw [if_neg hts] at hb
      by_cases hhs : eng.hallucination_threshold ≤ s
      · rw [if_pos hhs] at hb
        cases hb
      · rw [hstep, dif_neg (fun hc => hts hc.2), if_neg hhs]

/-- Witness for C6's amended statement at the default thresholds: similarity
0 on an empty fragment list falls in the discard band and the step leaves
the state unchanged. -/
theorem c6_threshold_partition_witness :
    (specBranch engDefault.similarity_threshold engDefault.hallucination_threshold 0 =
        .acceptExact →
      ∃ hmb : ([] : List (Nat × Block)) ≠ [],
        reconcile_step engDefault [] [] paraX ⟨[], 0, ∅⟩ = .ok ⟨[] ++ [⟨paraX.typ,
          String.intercalate (" ") (([] : List (Nat × Block)).map (fun p => p.2.text)),
          some [],
          merge_bboxes (([] : List (Nat × Block)).map (fun p => p.2.bbox)),
          (([] : List (Nat × Block)).head hmb).2.page,
          0, false, none⟩], 0, ∅ ∪ Finset.Ico 0 0⟩) ∧
    (specBranch engDefault.similarity_threshold engDefault.hallucination_threshold 0 =
        .acceptFlagged →
      reconcile_step engDefault [] [] paraX ⟨[], 0, ∅⟩ = .ok ⟨[] ++ [⟨paraX.typ,
        paraX.text, some [], paraX.bbox.getD ⟨0, 0, 0, 0⟩, paraX.page.getD 1,
        0, true, none⟩], 0, ∅⟩) ∧
    (specBranch engDefault.similarity_threshold engDefault.hallucination_threshold 0 =
        .discard →
      reconcile_step engDefault [] [] paraX ⟨[], 0, ∅⟩ = .ok ⟨[], 0, ∅⟩) :=
  c6_threshold_partition engDefault [] [] paraX ⟨[], 0, ∅⟩ [] 0 0
    (by decide) (by decide) (by rfl)

end
